import Mathlib

/-!
# DARMA serialization: archives, dispatch operators and the copy-constructor archive

A shallow embedding of

* `adapters/adapter_access.h` (`SizingArchiveAdapter`, `PackingArchiveAdapter`),
* `operator_overloads.h` (the `operator|` family),
* `examples/copy_constructor_archive/copy_constructor_archive.cc`
  (`CopySizingArchive`, `CopyPackingArchive`, `CopyUnpackingArchive` and the three
  customization points `darma_compute_size`, `darma_pack`, `darma_unpack`).

The handler façade and the leaf serializers of `std::map`, of `std::string` and of the
arithmetic types live in headers that are not among these sources; the definitions marked
"Modelled from the spec" stand for them.

Conventions of the embedding.

* `size_t` is an unsigned 64-bit integer: every `size_t` addition is taken modulo `2 ^ 64`.
* A `char*` is a natural-number address into one flat memory.  The archives of the source
  hold only the cursor `spot`; the memory they write and read through it is carried
  alongside the cursor in the archive state.  The memory extends past every buffer, so a
  cursor that runs past a buffer's end reads and writes the adjacent cells.
* An object passed by `T const&` is a Lean value; a destination passed by `T&` or
  `void*` is returned as the value constructed there.
* The object representation of a type that holds pointers (`std::string`) is kept abstract
  and stands for the object only where it was constructed; statements about bytes that are
  copied to another place are made for trivially copyable types.
-/

namespace DarmaSerialization

/-! ## Memory -/

/-- The modulus of `size_t` arithmetic (64-bit `size_t`). -/
def SIZE_MOD : Nat := 2 ^ 64

/-- One addressable `char` of storage.  A cell either holds a plain byte, or is one byte of
the object representation of a live `std::string`; the bits of the latter belong to the
standard library and are kept abstract: only the value of the string they belong to and
the offset inside the object are recorded. -/
inductive Cell where
  | byte (b : Fin 256)
  | str (s : String) (i : Nat)
  deriving DecidableEq, Repr

instance : Inhabited Cell := ⟨Cell.byte 0⟩

/-- Flat memory: a cell at every address. -/
abbrev Memory := Nat → Cell

/-- The `n` cells starting at address `p` (the source range of a `memcpy`, or the storage
an object of size `n` occupies at `p`). -/
def readBytes (m : Memory) (p n : Nat) : List Cell :=
  (List.range n).map (fun i => m (p + i))

/-- Memory after storing the cells `bs` at addresses `p, p+1, ...` (the effect of
`memcpy(p, src, bs.length)` or of constructing an object with representation `bs` at `p`). -/
def writeBytes (m : Memory) (p : Nat) (bs : List Cell) : Memory :=
  fun a => if p ≤ a then (bs[a - p]?).getD (m a) else m a

/-! ## Object types -/

/-- A C++ object type as the archives see it: its `sizeof`, the cells a live object of the
type occupies (`repr`), the value of the object found in given cells (`ofRepr`), and the
value a moved-from object is left with (`moved`; the identity for trivially copyable
types). -/
structure CType where
  Val : Type
  sizeof : Nat
  repr : Val → List Cell
  ofRepr : List Cell → Val
  moved : Val → Val
  sizeof_lt : sizeof < SIZE_MOD
  repr_length : ∀ v, (repr v).length = sizeof
  ofRepr_repr : ∀ v, ofRepr (repr v) = v

/-- A value together with its static type: one operand of a chain `ar | a | b | ...`. -/
abbrev Item := (T : CType) × T.Val

/-- The low byte of a natural number. -/
def byteOf (n : Nat) : Fin 256 := ⟨n % 256, Nat.mod_lt n (by decide)⟩

/-- Little-endian encoding of `u` on `k` bytes. -/
def le_bytes (u : Nat) : Nat → List Cell
  | 0 => []
  | k + 1 => Cell.byte (byteOf u) :: le_bytes (u / 256) k

/-- Little-endian value of a run of cells (a cell that is not a plain byte counts as 0). -/
def le_value : List Cell → Nat
  | [] => 0
  | Cell.byte b :: rest => b.val + 256 * le_value rest
  | Cell.str _ _ :: rest => 256 * le_value rest

theorem le_bytes_length (u k : Nat) : (le_bytes u k).length = k := by
  induction k generalizing u with
  | zero => rfl
  | succ k ih => simp [le_bytes, ih]

theorem le_value_le_bytes (u k : Nat) : le_value (le_bytes u k) = u % 256 ^ k := by
  induction k generalizing u with
  | zero => simp [le_bytes, le_value, Nat.mod_one]
  | succ k ih =>
    simp only [le_bytes, le_value, byteOf, ih]
    rw [Nat.pow_succ', Nat.mod_mul]

/-- Values of `int`: 32-bit two's complement. -/
abbrev IntVal := { z : Int // -2147483648 ≤ z ∧ z < 2147483648 }

/-- The `int` whose unsigned 32-bit pattern is `u % 2 ^ 32`. -/
def int_of_bits (u : Nat) : IntVal :=
  if h : u % 4294967296 < 2147483648 then
    ⟨(u % 4294967296 : Nat), by omega⟩
  else
    ⟨((u % 4294967296 : Nat) : Int) - 4294967296, by omega⟩

/-- The unsigned 32-bit pattern of an `int`. -/
def int_bits (z : IntVal) : Nat := (z.val % 4294967296).toNat

theorem int_of_bits_int_bits (z : IntVal) : int_of_bits (int_bits z) = z := by
  obtain ⟨z, h1, h2⟩ := z
  apply Subtype.ext
  have hu : (((z % 4294967296).toNat : Nat) : Int) = z % 4294967296 :=
    Int.toNat_of_nonneg (Int.emod_nonneg z (by decide))
  unfold int_of_bits int_bits
  simp only
  generalize (z % 4294967296).toNat = u at hu
  split <;> simp only <;> omega

/-- The type `int`: 4 bytes, little-endian two's complement. -/
def c_int : CType where
  Val := IntVal
  sizeof := 4
  repr := fun z => le_bytes (int_bits z) 4
  ofRepr := fun bs => int_of_bits (le_value bs)
  moved := id
  sizeof_lt := by decide
  repr_length := fun _ => le_bytes_length _ _
  ofRepr_repr := by
    intro z
    simp only [le_value_le_bytes]
    have h : int_bits z % 256 ^ 4 = int_bits z := by
      apply Nat.mod_eq_of_lt
      unfold int_bits
      omega
    rw [h, int_of_bits_int_bits]

/-- The type `double`: 8 bytes holding the IEEE-754 binary64 bit pattern, which is what a
value of the type is taken to be here. -/
def c_double : CType where
  Val := Fin (2 ^ 64)
  sizeof := 8
  repr := fun d => le_bytes d.val 8
  ofRepr := fun bs => Fin.ofNat (le_value bs)
  moved := id
  sizeof_lt := by decide
  repr_length := fun _ => le_bytes_length _ _
  ofRepr_repr := by
    intro d
    simp only [le_value_le_bytes]
    apply Fin.ext
    simp [Fin.ofNat]

/-- The type `size_t`: 8 bytes, little-endian. -/
def c_size_t : CType where
  Val := Fin (2 ^ 64)
  sizeof := 8
  repr := fun d => le_bytes d.val 8
  ofRepr := fun bs => Fin.ofNat (le_value bs)
  moved := id
  sizeof_lt := by decide
  repr_length := fun _ => le_bytes_length _ _
  ofRepr_repr := by
    intro d
    simp only [le_value_le_bytes]
    apply Fin.ext
    simp [Fin.ofNat]

/-- The value of the `std::string` object found in the given cells. -/
def string_of_cells : List Cell → String
  | Cell.str s _ :: _ => s
  | _ => ""

/-- The type `std::string`: an object of 32 bytes (pointer, length and a 16-byte local
buffer or capacity).  A moved-from string is empty.  The cells describe the object where it
was constructed: the real bytes hold a pointer (to the object's own local buffer, or to the
heap), so they stand for the string only at that place and not once copied elsewhere by
`memcpy`; the type is not trivially copyable (`CType.trivially_copyable`). -/
def c_string : CType where
  Val := String
  sizeof := 32
  repr := fun s => (List.range 32).map (Cell.str s)
  ofRepr := string_of_cells
  moved := fun _ => ""
  sizeof_lt := by decide
  repr_length := fun _ => by simp
  ofRepr_repr := fun _ => rfl

/-- The value of the `char` found in the given cells. -/
def char_of_cells : List Cell → Fin 256
  | Cell.byte b :: _ => b
  | _ => 0

/-- The type `char`: one byte. -/
def c_char : CType where
  Val := Fin 256
  sizeof := 1
  repr := fun b => [Cell.byte b]
  ofRepr := char_of_cells
  moved := id
  sizeof_lt := by decide
  repr_length := fun _ => rfl
  ofRepr_repr := fun _ => rfl

/-- A type is trivially copyable when its object representation is made of plain bytes
only, so that it means the same value wherever the bytes are copied, and a moved-from
object keeps its value. -/
def CType.trivially_copyable (T : CType) : Prop :=
  (∀ v, ∀ c ∈ T.repr v, ∃ b : Fin 256, c = Cell.byte b) ∧ (∀ v, T.moved v = v)

/-- State of `CopySizingArchive`, that is
`SizingArchiveAdapter<CopySizingArchiveImplementation>`: the running total
`size_t size = 0`. -/
structure CopySizingArchive where
  size : Nat
  deriving DecidableEq, Repr

/-- A default-constructed sizing archive: `CopySizingArchive{}`. -/
def CopySizingArchive.fresh : CopySizingArchive := { size := 0 }

/-- Embeds `SizingArchiveAdapter::add_to_size_raw(size_t size)`:
`size_reference(impl) += size`, on the total that the documented `size_reference()` of the
implementation refers to (an `Integral`; here the `size_t size`). -/
def add_to_size_raw (ar : CopySizingArchive) (size : Nat) : CopySizingArchive :=
  { size := (ar.size + size) % SIZE_MOD }

/-- Embeds `darma_compute_size(T const& obj, CopySizingArchive& ar)`:
`ar.size += sizeof(T)`, a `size_t` addition. -/
def darma_compute_size (T : CType) (_obj : T.Val) (ar : CopySizingArchive) :
    CopySizingArchive :=
  { size := (ar.size + T.sizeof) % SIZE_MOD }

/-! ## Packing archive (`CopyPackingArchiveImplementation`, `PackingArchiveAdapter`) -/

/-- State of `CopyPackingArchive`: the cursor `char* spot`, with the memory it points into. -/
structure CopyPackingArchive where
  mem : Memory
  spot : Nat

/-- Embeds `PackingArchiveAdapter::pack_data_raw(begin, end)` for a contiguous range
holding the elements `elems` of type `T`:
`size = distance(begin, end) * sizeof(value_type)` in `size_t` arithmetic,
`memcpy(spot, begin, size)`, `spot += size`. -/
def pack_data_raw (T : CType) (ar : CopyPackingArchive) (elems : List T.Val) :
    CopyPackingArchive :=
  let size := (elems.length * T.sizeof) % SIZE_MOD
  { mem := writeBytes ar.mem ar.spot ((elems.flatMap T.repr).take size),
    spot := ar.spot + size }

/-- Embeds `darma_pack(T const& obj, CopyPackingArchive& ar)`:
`new (ar.spot) T(obj); ar.spot += sizeof(T);`. -/
def darma_pack (T : CType) (obj : T.Val) (ar : CopyPackingArchive) : CopyPackingArchive :=
  { mem := writeBytes ar.mem ar.spot (T.repr obj),
    spot := ar.spot + T.sizeof }

/-! ## Unpacking archive (`CopyUnpackingArchive`) -/

/-- State of `CopyUnpackingArchive<>`: the cursor `char* spot`, with the memory it points
into.  The allocator member is a stateless `std::allocator<char>`. -/
structure CopyUnpackingArchive where
  mem : Memory
  spot : Nat

/-- Embeds `CopyUnpackingArchive::unpack_data_raw<RawDataType>(allocated_dest, n_items)`:
`memcpy(allocated_dest, spot, n_items * sizeof(RawDataType))`, then the cursor advances by
the same amount.  The result holds the cells copied to `allocated_dest`. -/
def unpack_data_raw (T : CType) (ar : CopyUnpackingArchive) (n_items : Nat) :
    List Cell × CopyUnpackingArchive :=
  let size := (n_items * T.sizeof) % SIZE_MOD
  (readBytes ar.mem ar.spot size, { mem := ar.mem, spot := ar.spot + size })

/-- Embeds `CopyUnpackingArchive::unpack_next_item_as<T>()`: remember `old_spot`, advance
the cursor by `sizeof(T)`, and return a `T` move-constructed from the object at `old_spot`
(which is left in its moved-from state). -/
def unpack_next_item_as (T : CType) (ar : CopyUnpackingArchive) :
    T.Val × CopyUnpackingArchive :=
  let old_spot := ar.spot
  let spot := ar.spot + T.sizeof
  let v := T.ofRepr (readBytes ar.mem old_spot T.sizeof)
  (v, { mem := writeBytes ar.mem old_spot (T.repr (T.moved v)), spot := spot })

/-- Embeds `CopyUnpackingArchive::unpack_next_item_at<T>(allocated)`: move-construct a `T`
at `allocated` from the object at the cursor (which is left in its moved-from state), then
advance the cursor by `sizeof(T)`.  The result holds the value constructed at
`allocated`. -/
def unpack_next_item_at (T : CType) (ar : CopyUnpackingArchive) :
    T.Val × CopyUnpackingArchive :=
  let v := T.ofRepr (readBytes ar.mem ar.spot T.sizeof)
  (v, { mem := writeBytes ar.mem ar.spot (T.repr (T.moved v)), spot := ar.spot + T.sizeof })

/-- Embeds `darma_unpack(allocated_buffer_for<T> alloc, CopyUnpackingArchive<>& ar)`:
`ar.unpack_next_item_at<T>(alloc.pointer)`. -/
def darma_unpack (T : CType) (ar : CopyUnpackingArchive) : T.Val × CopyUnpackingArchive :=
  unpack_next_item_at T ar

/-! ## The dispatch operators (`operator_overloads.h`) -/

/-- Embeds `operator|(Archive& ar, T const& val)` on a sizing archive:
`darma_compute_size(val, ar); return ar;`. -/
def op_or_sizing (T : CType) (ar : CopySizingArchive) (val : T.Val) : CopySizingArchive :=
  darma_compute_size T val ar

/-- Embeds `operator%(Archive& ar, T const& val)` on a sizing archive. -/
def op_mod_sizing (T : CType) (ar : CopySizingArchive) (val : T.Val) : CopySizingArchive :=
  darma_compute_size T val ar

/-- Embeds `operator|(Archive& ar, T const& val)` on a packing archive:
`darma_pack(val, ar); return ar;`. -/
def op_or_packing (T : CType) (ar : CopyPackingArchive) (val : T.Val) : CopyPackingArchive :=
  darma_pack T val ar

/-- Embeds `operator<<(Archive& ar, T const& val)` on a packing archive. -/
def op_shl_packing (T : CType) (ar : CopyPackingArchive) (val : T.Val) : CopyPackingArchive :=
  darma_pack T val ar

/-- Embeds `operator|(Archive& ar, T& val)` on an unpacking archive: destroy `val` (its old
value is dropped), then `darma_unpack(allocated_buffer_for<T>{&val}, ar); return ar;`.
The first component of the result is the new value of `val`. -/
def op_or_unpacking (T : CType) (ar : CopyUnpackingArchive) (_val : T.Val) :
    T.Val × CopyUnpackingArchive :=
  darma_unpack T ar

/-- Embeds `operator>>(Archive& ar, T& val)` on an unpacking archive. -/
def op_shr_unpacking (T : CType) (ar : CopyUnpackingArchive) (_val : T.Val) :
    T.Val × CopyUnpackingArchive :=
  darma_unpack T ar

/-- The chain `ar | v1 | v2 | ...` on a sizing archive (`operator|` associates to the
left). -/
def sizing_chain (ar : CopySizingArchive) (vs : List Item) : CopySizingArchive :=
  vs.foldl (fun a it => op_or_sizing it.1 a it.2) ar

/-- The chain `ar | v1 | v2 | ...` on a packing archive. -/
def packing_chain (ar : CopyPackingArchive) (vs : List Item) : CopyPackingArchive :=
  vs.foldl (fun a it => op_or_packing it.1 a it.2) ar

/-- The chain `ar | d1 | d2 | ...` on an unpacking archive; `ds` holds the destinations with
their old values, the result their new values in the same order. -/
def unpacking_chain : CopyUnpackingArchive → List Item → List Item × CopyUnpackingArchive
  | ar, [] => ([], ar)
  | ar, d :: ds =>
    let r := op_or_unpacking d.1 ar d.2
    let rest := unpacking_chain r.2 ds
    (⟨d.1, r.1⟩ :: rest.1, rest.2)

/-- The cells a sequence of values occupies when each is laid down after the other. -/
def encoding (vs : List Item) : List Cell :=
  vs.flatMap (fun it => it.1.repr it.2)

/-- The sum of `sizeof` over the static types of a sequence of values. -/
def total_sizeof (vs : List Item) : Nat :=
  (vs.map (fun it => it.1.sizeof)).sum

/-! ## Buffers and the handler façade -/

/-- Modelled from the spec: the serialization buffers (`simple_handler.h`, with the owning
buffer and `NonOwningSerializationBuffer`, is not among the sources).  A buffer is a
contiguous region known by `data()` and `capacity()`; it either owns its storage or borrows
storage owned by the caller. -/
structure SerializationBuffer where
  data : Nat
  capacity : Nat
  owning : Bool
  deriving DecidableEq, Repr

/-- Modelled from the spec: `NonOwningSerializationBuffer(address, length)` wraps
caller-supplied storage and allocates nothing. -/
def NonOwningSerializationBuffer (address length : Nat) : SerializationBuffer :=
  { data := address, capacity := length, owning := false }

/-- The address one past the last cell of a buffer. -/
def SerializationBuffer.end_ (b : SerializationBuffer) : Nat := b.data + b.capacity

/-- Modelled from the spec: a dispatch entry, the three operations a serializable type
supplies (measure, pack, unpack), each threading the archive it is given. -/
structure Serializer where
  Val : Type
  compute_size : Val → CopySizingArchive → CopySizingArchive
  pack : Val → CopyPackingArchive → CopyPackingArchive
  unpack : CopyUnpackingArchive → Val × CopyUnpackingArchive

/-- The dispatch entry the copy-constructor archive gives every type: the three
customization points of `copy_constructor_archive.cc`. -/
def copy_serializer (T : CType) : Serializer where
  Val := T.Val
  compute_size := darma_compute_size T
  pack := darma_pack T
  unpack := darma_unpack T

/-- Modelled from the spec: the packing archive of the handler, a cursor into a
pre-allocated destination buffer that it hands back on extraction. -/
structure HandlerPackingArchive where
  buffer : SerializationBuffer
  ar : CopyPackingArchive

/-- Modelled from the spec: `make_sizing_archive()`, a sizing archive with total 0. -/
def make_sizing_archive : CopySizingArchive := CopySizingArchive.fresh

/-- Modelled from the spec: `get_size(sizing_archive)` peeks at the running total. -/
def get_size (ar : CopySizingArchive) : Nat := ar.size

/-- Modelled from the spec: `make_packing_archive(sizing)` consumes the sizing archive and
allocates an owning buffer sized exactly to its total; `alloc` is the address the
allocator returns and `m` the memory the buffer lives in.  The cursor starts at the
buffer start. -/
def make_packing_archive (alloc : Nat) (m : Memory) (sizing : CopySizingArchive) :
    HandlerPackingArchive :=
  { buffer := { data := alloc, capacity := get_size sizing, owning := true },
    ar := { mem := m, spot := alloc } }

/-- Modelled from the spec: `extract_buffer(packing)` hands out the packed buffer (with
the memory holding its cells). -/
def extract_buffer (p : HandlerPackingArchive) : SerializationBuffer × Memory :=
  (p.buffer, p.ar.mem)

/-- Modelled from the spec: `make_unpacking_archive(buffer)`, an unpacking archive whose
cursor is at the start of the buffer, owning or not. -/
def make_unpacking_archive (buffer : SerializationBuffer) (m : Memory) :
    CopyUnpackingArchive :=
  { mem := m, spot := buffer.data }

/-- Modelled from the spec: `serialize(value)` runs a sizing pass, then a packing pass into
a freshly allocated owning buffer sized exactly to the sizing result, and returns that
buffer. -/
def serialize (S : Serializer) (alloc : Nat) (m : Memory) (v : S.Val) :
    SerializationBuffer × Memory :=
  let sizing := S.compute_size v make_sizing_archive
  let packing := make_packing_archive alloc m sizing
  extract_buffer { packing with ar := S.pack v packing.ar }

/-- Modelled from the spec: `deserialize<T>(buffer)` constructs an unpacking archive over
the buffer, dispatch-constructs a `T` and returns it. -/
def deserialize (S : Serializer) (buffer : SerializationBuffer) (m : Memory) : S.Val :=
  (S.unpack (make_unpacking_archive buffer m)).1

/-- One argument of a handler call: a value together with the dispatch entry of its
type. -/
abbrev HandlerItem := (S : Serializer) × S.Val

/-- A value of the copy-constructor archive as a handler argument. -/
def copy_item (it : Item) : HandlerItem := ⟨copy_serializer it.1, it.2⟩

/-- The chain `sizing_archive | v1 | v2 | ...` with every value dispatched to the measure
operation of its type. -/
def handler_sizing_chain (ar : CopySizingArchive) (vs : List HandlerItem) :
    CopySizingArchive :=
  vs.foldl (fun a it => it.1.compute_size it.2 a) ar

/-- The chain `packing_archive | v1 | v2 | ...` with every value dispatched to the pack
operation of its type. -/
def handler_packing_chain (ar : CopyPackingArchive) (vs : List HandlerItem) :
    CopyPackingArchive :=
  vs.foldl (fun a it => it.1.pack it.2 a) ar

/-- Modelled from the spec: the variadic `serialize(values...)` runs a sizing pass over the
values, then a packing pass into a freshly allocated owning buffer sized exactly to the
sizing result, and returns that buffer. -/
def serialize_values (alloc : Nat) (m : Memory) (vs : List HandlerItem) :
    SerializationBuffer × Memory :=
  let sizing := handler_sizing_chain make_sizing_archive vs
  let packing := make_packing_archive alloc m sizing
  extract_buffer { packing with ar := handler_packing_chain packing.ar vs }

/-- Embeds `pack_things_with_archives(obj, obj2, obj3)` of `moving_data.cc`:
`sizing_archive | obj | obj2 | obj3`, `make_packing_archive(sizing_archive)`,
`packing_archive | obj | obj2 | obj3`, `extract_buffer(packing_archive)`; every `|`
dispatches to the operation of the object's type. -/
def pack_things_with_archives (alloc : Nat) (m : Memory) (S1 S2 S3 : Serializer)
    (obj : S1.Val) (obj2 : S2.Val) (obj3 : S3.Val) : SerializationBuffer × Memory :=
  let sizing_archive :=
    S3.compute_size obj3 (S2.compute_size obj2 (S1.compute_size obj make_sizing_archive))
  let packing_archive := make_packing_archive alloc m sizing_archive
  extract_buffer
    { packing_archive with
      ar := S3.pack obj3 (S2.pack obj2 (S1.pack obj packing_archive.ar)) }

/-- Embeds `unpacking_things_with_archives(buffer, obj, obj2, obj3)` of `moving_data.cc`:
`make_unpacking_archive(buffer)`, then `unpacking_archive | obj | obj2 | obj3`; the result
holds the new values of the three objects. -/
def unpacking_things_with_archives (buffer : SerializationBuffer) (m : Memory)
    (S1 S2 S3 : Serializer) : S1.Val × S2.Val × S3.Val :=
  let r1 := S1.unpack (make_unpacking_archive buffer m)
  let r2 := S2.unpack r1.2
  let r3 := S3.unpack r2.2
  (r1.1, r2.1, r3.1)

/-- Modelled from the spec: the encoded size of a value, what a fresh sizing archive reports
after measuring the value alone. -/
def Serializer.encoded_size (S : Serializer) (v : S.Val) : Nat :=
  get_size (S.compute_size v make_sizing_archive)

/-- Modelled from the spec: the contract between the measure and the pack operation of a
type, at a value `v`.  Measuring has no effect but adding the encoded size to the running
total (through `add_to_size_raw`); packing advances the cursor by the encoded size and
writes no cell but those it advances over. -/
def Serializer.size_agrees (S : Serializer) (v : S.Val) : Prop :=
  (∀ ar, S.compute_size v ar = add_to_size_raw ar (S.encoded_size v)) ∧
  (∀ ar : CopyPackingArchive,
    (S.pack v ar).spot = ar.spot + S.encoded_size v ∧
    ∀ a, a < ar.spot ∨ ar.spot + S.encoded_size v ≤ a → (S.pack v ar).mem a = ar.mem a)

/-- The sum of the encoded sizes of the arguments of a handler call. -/
def handler_total (vs : List HandlerItem) : Nat :=
  (vs.map (fun it => it.1.encoded_size it.2)).sum

/-! ## Leaf serializers -/

/-- Modelled from the spec: the serializer of an arithmetic (trivially copyable) type
(`serializers/arithmetic_types.h` is not among the sources) contributes `sizeof(T)`
through `add_to_size_raw`. -/
def arithmetic_compute_size (T : CType) (_obj : T.Val) (ar : CopySizingArchive) :
    CopySizingArchive :=
  add_to_size_raw ar T.sizeof

/-- Modelled from the spec: an arithmetic value is packed as its in-memory bytes, by the
raw bulk copy of one element. -/
def arithmetic_pack (T : CType) (obj : T.Val) (ar : CopyPackingArchive) :
    CopyPackingArchive :=
  pack_data_raw T ar [obj]

/-- Modelled from the spec: an arithmetic value is unpacked by the raw bulk copy of one
element into the destination. -/
def arithmetic_unpack (T : CType) (ar : CopyUnpackingArchive) :
    T.Val × CopyUnpackingArchive :=
  let r := unpack_data_raw T ar 1
  (T.ofRepr r.1, r.2)

/-- Modelled from the spec: the dispatch entry of an arithmetic type. -/
def arithmetic_serializer (T : CType) : Serializer where
  Val := T.Val
  compute_size := arithmetic_compute_size T
  pack := arithmetic_pack T
  unpack := arithmetic_unpack T

/-- Modelled from the spec: the measure operation of `std::string` (a container of `char`)
accounts for the element count and then adds the raw bytes of the characters
(`serializers/standard_library/string.h` is not among the sources). -/
def string_compute_size (s : List (Fin 256)) (ar : CopySizingArchive) : CopySizingArchive :=
  add_to_size_raw (arithmetic_compute_size c_size_t (Fin.ofNat s.length) ar)
    (s.length * c_char.sizeof)

/-- Modelled from the spec: a `std::string` packs its element count, then its characters by
the raw bulk copy. -/
def string_pack (s : List (Fin 256)) (ar : CopyPackingArchive) : CopyPackingArchive :=
  pack_data_raw c_char (arithmetic_pack c_size_t (Fin.ofNat s.length) ar) s

/-- Modelled from the spec: a `std::string` unpacks its element count, then that many
characters by the raw bulk copy. -/
def string_unpack (ar : CopyUnpackingArchive) : List (Fin 256) × CopyUnpackingArchive :=
  let n := arithmetic_unpack c_size_t ar
  let r := unpack_data_raw c_char n.2 n.1.val
  (r.1.map (fun c => char_of_cells [c]), r.2)

/-- Modelled from the spec: the dispatch entry of `std::string`; a string is given by its
characters. -/
def string_serializer : Serializer where
  Val := List (Fin 256)
  compute_size := string_compute_size
  pack := string_pack
  unpack := string_unpack

/-- Memory in which every cell holds the byte 0. -/
def zero_memory : Memory := fun _ => Cell.byte 0

/-- Value of `int i = 42;` -/
def main_i : Item := ⟨c_int, ⟨42, by decide⟩⟩

/-- Value of `double val = 3.14;` (binary64 pattern `0x40091EB851EB851F`). -/
def main_val : Item := ⟨c_double, (4614253070214989087 : Fin (2 ^ 64))⟩

/-- Value of `std::string str = "hello world";` -/
def main_str : Item := ⟨c_string, "hello world"⟩

/-- Value of `i = 0;` -/
def reset_i : Item := ⟨c_int, ⟨0, by decide⟩⟩

/-- Value of `val = 0;` -/
def reset_val : Item := ⟨c_double, (0 : Fin (2 ^ 64))⟩

/-- Value of `str = "";` -/
def reset_str : Item := ⟨c_string, ""⟩

/-- The `int` value `-1` (all four bytes `0xFF`). -/
def minus_one : IntVal := ⟨-1, by decide⟩

/-- A two-byte owning buffer at address 0. -/
def small_buffer : SerializationBuffer := { data := 0, capacity := 2, owning := true }

/-- A memory in which a two-byte message at address 100 is followed by other data of the
caller: the cells 102 and 103 hold `0xFF`, every other cell holds 0. -/
def receive_memory : Memory := writeBytes zero_memory 102 [Cell.byte 255, Cell.byte 255]

/-- A borrowed buffer over the two-byte message at address 100. -/
def message_view : SerializationBuffer := NonOwningSerializationBuffer 100 2

/-- A sizing archive whose running total is `2 ^ 64 - 1`, the largest `size_t`. -/
def full_sizing_archive : CopySizingArchive := { size := 18446744073709551615 }

/-- A sizing archive whose running total is `2 ^ 64 - 4`. -/
def nearly_full_sizing_archive : CopySizingArchive := { size := 18446744073709551612 }

/-- The buffer `pack_things_with_archives(i, val, my_str)` gives for the values of `main`
when each object is dispatched to the customization points of the copy-constructor
archive, allocated at address 0 of a zeroed memory. -/
def packed_main : SerializationBuffer × Memory :=
  pack_things_with_archives 0 zero_memory (copy_serializer c_int) (copy_serializer c_double)
    (copy_serializer c_string) main_i.2 main_val.2 main_str.2

/-- The packing archive after `p_ar | i | val` at address 0 of a zeroed memory: the `int` 42
followed by the `double` 3.14. -/
def int_then_double : CopyPackingArchive :=
  packing_chain { mem := zero_memory, spot := 0 } [main_i, main_val]

/-- The characters of `"hello world"`. -/
def hello_world : List (Fin 256) := [104, 101, 108, 108, 111, 32, 119, 111, 114, 108, 100]

/-- The arguments of `serialize(i, val, my_str)` for the values of `main`, each with the
serializer of its type. -/
def main_arguments : List HandlerItem :=
  [⟨arithmetic_serializer c_int, main_i.2⟩, ⟨arithmetic_serializer c_double, main_val.2⟩,
   ⟨string_serializer, hello_world⟩]

/-! ## The lifetime of an unpack destination -/

/-- What `ar | val` on an unpacking archive does to the storage of `val`, in the order in
which it happens: the destruction of the object living there, and the construction of an
object by the type's unpack operation. -/
inductive StorageEvent (T : CType) where
  | destroy (old : T.Val)
  | construct (new : T.Val)

/-- The storage of a destination `val`: the live `T` it holds, if any, and what has happened
to it so far. -/
structure Storage (T : CType) where
  object : Option T.Val
  events : List (StorageEvent T)

/-- Storage holding the live object `v`, with no history yet. -/
def Storage.live {T : CType} (v : T.Val) : Storage T := { object := some v, events := [] }

/-- Embeds `std::allocator_traits<alloc_t>::destroy(alloc, &val)`: the object in the storage
is destroyed and the storage is left raw. -/
def allocator_destroy (T : CType) (val : Storage T) : Storage T :=
  match val.object with
  | some old => { object := none, events := val.events ++ [StorageEvent.destroy old] }
  | none => val

/-- Embeds `darma_unpack(allocated_buffer_for<T> alloc, CopyUnpackingArchive<>& ar)` with the
storage `alloc.pointer` refers to made explicit: `unpack_next_item_at<T>` constructs the
unpacked object in that storage. -/
def darma_unpack_into (T : CType) (alloc : Storage T) (ar : CopyUnpackingArchive) :
    Storage T × CopyUnpackingArchive :=
  let r := unpack_next_item_at T ar
  ({ object := some r.1, events := alloc.events ++ [StorageEvent.construct r.1] }, r.2)

/-- Embeds `operator|(Archive& ar, T& val)` on an unpacking archive with the storage of `val`
made explicit: first `destroy(alloc, &val)`, then
`darma_unpack(allocated_buffer_for<T>{&val}, ar)`, then `return ar`. -/
def op_or_unpacking_into (T : CType) (ar : CopyUnpackingArchive) (val : Storage T) :
    Storage T × CopyUnpackingArchive :=
  darma_unpack_into T (allocator_destroy T val) ar

/-- Embeds `operator>>(Archive& ar, T& val)` on an unpacking archive with the storage of
`val` made explicit. -/
def op_shr_unpacking_into (T : CType) (ar : CopyUnpackingArchive) (val : Storage T) :
    Storage T × CopyUnpackingArchive :=
  darma_unpack_into T (allocator_destroy T val) ar

/-! ## Memory lemmas -/

theorem readBytes_length (m : Memory) (p n : Nat) : (readBytes m p n).length = n := by
  simp [readBytes]

theorem readBytes_getElem? (m : Memory) (p n i : Nat) (h : i < n) :
    (readBytes m p n)[i]? = some (m (p + i)) := by
  simp [readBytes, List.getElem?_map, List.getElem?_range h]

theorem readBytes_add (m : Memory) (p a b : Nat) :
    readBytes m p (a + b) = readBytes m p a ++ readBytes m (p + a) b := by
  simp [readBytes, List.range_add, List.map_append, Nat.add_assoc]

theorem writeBytes_of_lt (m : Memory) (p : Nat) (bs : List Cell) (a : Nat) (h : a < p) :
    writeBytes m p bs a = m a := by
  simp [writeBytes, Nat.not_le.mpr h]

theorem writeBytes_of_ge (m : Memory) (p : Nat) (bs : List Cell) (a : Nat)
    (h : p + bs.length ≤ a) : writeBytes m p bs a = m a := by
  unfold writeBytes
  split
  · rw [List.getElem?_eq_none (by omega)]
    rfl
  · rfl

theorem writeBytes_inside (m : Memory) (p : Nat) (bs : List Cell) (i : Nat)
    (h : i < bs.length) : writeBytes m p bs (p + i) = bs[i] := by
  simp [writeBytes, h]

theorem readBytes_writeBytes_same (m : Memory) (p : Nat) (bs : List Cell) :
    readBytes (writeBytes m p bs) p bs.length = bs := by
  apply List.ext_getElem?
  intro i
  by_cases h : i < bs.length
  · rw [readBytes_getElem? _ _ _ _ h, writeBytes_inside _ _ _ _ h]
    simp [h]
  · rw [List.getElem?_eq_none (by simp [readBytes_length]; omega),
      List.getElem?_eq_none (by omega)]

theorem readBytes_congr (m1 m2 : Memory) (p n : Nat)
    (h : ∀ a, p ≤ a → a < p + n → m1 a = m2 a) : readBytes m1 p n = readBytes m2 p n := by
  unfold readBytes
  apply List.map_congr_left
  intro i hi
  exact h (p + i) (by omega) (by have := List.mem_range.mp hi; omega)

theorem readBytes_writeBytes_disjoint (m : Memory) (p : Nat) (bs : List Cell) (q n : Nat)
    (h : q + n ≤ p ∨ p + bs.length ≤ q) :
    readBytes (writeBytes m p bs) q n = readBytes m q n := by
  apply readBytes_congr
  intro a h1 h2
  rcases h with h | h
  · exact writeBytes_of_lt _ _ _ _ (by omega)
  · exact writeBytes_of_ge _ _ _ _ (by omega)

theorem writeBytes_append (m : Memory) (p : Nat) (as bs : List Cell) :
    writeBytes (writeBytes m p as) (p + as.length) bs = writeBytes m p (as ++ bs) := by
  funext a
  by_cases h1 : a < p
  · rw [writeBytes_of_lt _ _ _ _ (by omega), writeBytes_of_lt _ _ _ _ h1,
      writeBytes_of_lt _ _ _ _ h1]
  · by_cases h2 : a < p + as.length
    · rw [writeBytes_of_lt _ _ _ _ h2]
      simp only [writeBytes, if_pos (Nat.le_of_not_lt h1)]
      rw [List.getElem?_append_left (by omega)]
    · simp only [writeBytes, if_pos (Nat.le_of_not_lt h1), if_pos (Nat.le_of_not_lt h2)]
      rw [List.getElem?_append_right (by omega), List.getElem?_eq_none (l := as) (by omega)]
      simp only [Option.getD_none]
      congr 2
      omega

theorem writeBytes_nil (m : Memory) (p : Nat) : writeBytes m p [] = m := by
  funext a
  simp [writeBytes]

/-! ## Chains -/

theorem encoding_length (vs : List Item) : (encoding vs).length = total_sizeof vs := by
  induction vs with
  | nil => rfl
  | cons v vs ih =>
    simp only [encoding, total_sizeof, List.flatMap_cons, List.length_append, List.map_cons,
      List.sum_cons] at ih ⊢
    rw [ih, v.1.repr_length]

theorem encoding_cons (v : Item) (vs : List Item) :
    encoding (v :: vs) = v.1.repr v.2 ++ encoding vs := by
  simp [encoding]

theorem total_sizeof_cons (v : Item) (vs : List Item) :
    total_sizeof (v :: vs) = v.1.sizeof + total_sizeof vs := by
  simp [total_sizeof]

theorem sizing_chain_cons (ar : CopySizingArchive) (v : Item) (vs : List Item) :
    sizing_chain ar (v :: vs) = sizing_chain (op_or_sizing v.1 ar v.2) vs := rfl

theorem packing_chain_cons (ar : CopyPackingArchive) (v : Item) (vs : List Item) :
    packing_chain ar (v :: vs) = packing_chain (op_or_packing v.1 ar v.2) vs := rfl

/-- The total of a sizing chain, modulo `2 ^ 64`, is the starting total plus the summed
`sizeof`s. -/
theorem sizing_chain_size (ar : CopySizingArchive) (vs : List Item) :
    (sizing_chain ar vs).size % SIZE_MOD = (ar.size + total_sizeof vs) % SIZE_MOD := by
  induction vs generalizing ar with
  | nil => simp [sizing_chain, total_sizeof]
  | cons v vs ih =>
    rw [sizing_chain_cons, ih, total_sizeof_cons]
    simp only [op_or_sizing, darma_compute_size]
    rw [Nat.add_mod, Nat.mod_mod, ← Nat.add_mod, Nat.add_assoc]

theorem SIZE_MOD_pos : 0 < SIZE_MOD := by decide

/-- A sizing chain keeps the total inside the range of `size_t`. -/
theorem sizing_chain_size_lt (ar : CopySizingArchive) (vs : List Item)
    (h : ar.size < SIZE_MOD) : (sizing_chain ar vs).size < SIZE_MOD := by
  induction vs generalizing ar with
  | nil => exact h
  | cons v vs ih =>
    rw [sizing_chain_cons]
    exact ih _ (Nat.mod_lt _ SIZE_MOD_pos)

/-- A fresh sizing archive accumulates the summed `sizeof`s in `size_t` arithmetic. -/
theorem sizing_chain_fresh (vs : List Item) :
    (sizing_chain CopySizingArchive.fresh vs).size = total_sizeof vs % SIZE_MOD := by
  have h := sizing_chain_size CopySizingArchive.fresh vs
  have hlt : (sizing_chain CopySizingArchive.fresh vs).size < SIZE_MOD :=
    sizing_chain_size_lt _ vs SIZE_MOD_pos
  rw [Nat.mod_eq_of_lt hlt] at h
  rw [h]
  simp [CopySizingArchive.fresh]

/-- A packing chain lays the encoding of the sequence down at the starting cursor and
advances the cursor by the summed `sizeof`s. -/
theorem packing_chain_eq (m : Memory) (p : Nat) (vs : List Item) :
    packing_chain { mem := m, spot := p } vs
      = { mem := writeBytes m p (encoding vs), spot := p + total_sizeof vs } := by
  induction vs generalizing m p with
  | nil => simp [packing_chain, encoding, total_sizeof, writeBytes_nil]
  | cons v vs ih =>
    rw [packing_chain_cons]
    simp only [op_or_packing, darma_pack]
    rw [ih, encoding_cons, total_sizeof_cons, ← writeBytes_append, v.1.repr_length,
      Nat.add_assoc]

/-- Unpacking a chain of destinations from memory that holds, at the cursor, the encoding of
a sequence with the same static types yields that sequence, and advances the cursor by the
summed `sizeof`s. -/
theorem unpacking_chain_of_encoding (vs ds : List Item) (m : Memory) (p : Nat)
    (hty : ds.map Sigma.fst = vs.map Sigma.fst)
    (hmem : readBytes m p (total_sizeof vs) = encoding vs) :
    (unpacking_chain { mem := m, spot := p } ds).1 = vs ∧
      (unpacking_chain { mem := m, spot := p } ds).2.spot = p + total_sizeof vs := by
  induction vs generalizing ds m p with
  | nil =>
    cases ds with
    | nil => simp [unpacking_chain, total_sizeof]
    | cons d ds => simp at hty
  | cons v vs ih =>
    cases ds with
    | nil => simp at hty
    | cons d ds =>
      obtain ⟨T, x⟩ := v
      obtain ⟨T', old⟩ := d
      simp only [List.map_cons, List.cons.injEq] at hty
      obtain ⟨hT, hty⟩ := hty
      subst hT
      rw [total_sizeof_cons, encoding_cons, readBytes_add] at hmem
      obtain ⟨h1, h2⟩ := List.append_inj hmem
        (by rw [readBytes_length, T'.repr_length])
      simp only at h1 h2
      have hrest := ih ds
        (writeBytes m p (T'.repr (T'.moved (T'.ofRepr (readBytes m p T'.sizeof)))))
        (p + T'.sizeof) hty
        (by rw [readBytes_writeBytes_disjoint _ _ _ _ _
              (Or.inr (by rw [T'.repr_length])), h2])
      simp only [unpacking_chain, op_or_unpacking, darma_unpack, unpack_next_item_at]
      refine ⟨?_, ?_⟩
      · rw [hrest.1, h1, T'.ofRepr_repr]
      · rw [hrest.2, total_sizeof_cons, Nat.add_assoc]

/-! ## Round trips -/

/-- C1 (round trip of one value): for every type `T`, value `v`, memory and buffer start
`buf`, the sizing pass on `v` yields `sizeof(T)`; packing `v` at `buf` fills exactly the
buffer `[buf, buf + size)`; unpacking one `T` from `buf` afterwards (through
`darma_unpack`, through `operator|` into a destination holding any `old` value, or
through `unpack_next_item_as`) yields `v` and consumes exactly the buffer; and
`deserialize<T>(serialize(v))` is `v`. -/
theorem round_trip_one_value (T : CType) (v old : T.Val) (m : Memory) (buf : Nat) :
    (op_or_sizing T CopySizingArchive.fresh v).size = T.sizeof ∧
    (op_or_packing T { mem := m, spot := buf } v).spot
      = buf + (op_or_sizing T CopySizingArchive.fresh v).size ∧
    (darma_unpack T
      { mem := (op_or_packing T { mem := m, spot := buf } v).mem, spot := buf }).1 = v ∧
    (op_or_unpacking T
      { mem := (op_or_packing T { mem := m, spot := buf } v).mem, spot := buf } old).1 = v ∧
    (unpack_next_item_as T
      { mem := (op_or_packing T { mem := m, spot := buf } v).mem, spot := buf }).1 = v ∧
    (darma_unpack T
      { mem := (op_or_packing T { mem := m, spot := buf } v).mem, spot := buf }).2.spot
      = buf + (op_or_sizing T CopySizingArchive.fresh v).size ∧
    deserialize (copy_serializer T) (serialize (copy_serializer T) buf m v).1
      (serialize (copy_serializer T) buf m v).2 = v := by
  have hsize : (op_or_sizing T CopySizingArchive.fresh v).size = T.sizeof := by
    simp only [op_or_sizing, darma_compute_size, CopySizingArchive.fresh, Nat.zero_add]
    exact Nat.mod_eq_of_lt T.sizeof_lt
  have hread : T.ofRepr (readBytes (writeBytes m buf (T.repr v)) buf T.sizeof) = v := by
    have h := readBytes_writeBytes_same m buf (T.repr v)
    rw [T.repr_length] at h
    rw [h, T.ofRepr_repr]
  refine ⟨hsize, ?_, ?_, ?_, ?_, ?_, ?_⟩
  · rw [hsize]; rfl
  · exact hread
  · exact hread
  · exact hread
  · rw [hsize]; rfl
  · exact hread

/-- C2 (sequence round trip): for every sequence of values `vs`, every memory and buffer
start, and destinations `ds` of the same static types in the same order (holding any old
values), unpacking `ds` in a chain from the buffer into which `vs` was packed in a chain
leaves every destination equal to the corresponding value. -/
theorem round_trip_sequence (vs ds : List Item) (m : Memory) (buf : Nat)
    (hty : ds.map Sigma.fst = vs.map Sigma.fst) :
    (unpacking_chain
      { mem := (packing_chain { mem := m, spot := buf } vs).mem, spot := buf } ds).1 = vs := by
  rw [packing_chain_eq]
  refine (unpacking_chain_of_encoding vs ds _ buf hty ?_).1
  rw [← encoding_length, readBytes_writeBytes_same]

/-- Witness for C2: `42, 3.14, "hello world"` packed and then unpacked into destinations
reset to `0, 0, ""`. -/
theorem round_trip_sequence_witness :
    [reset_i, reset_val, reset_str].map Sigma.fst
        = [main_i, main_val, main_str].map Sigma.fst ∧
    (unpacking_chain
      { mem := (packing_chain { mem := zero_memory, spot := 0 }
                  [main_i, main_val, main_str]).mem,
        spot := 0 } [reset_i, reset_val, reset_str]).1 = [main_i, main_val, main_str] :=
  ⟨rfl, round_trip_sequence [main_i, main_val, main_str] [reset_i, reset_val, reset_str]
    zero_memory 0 rfl⟩

/-! ## The map serializer -/

theorem arithmetic_pack_eq (T : CType) (v : T.Val) (ar : CopyPackingArchive) :
    arithmetic_pack T v ar = darma_pack T v ar := by
  have hs : (1 * T.sizeof) % SIZE_MOD = T.sizeof := by
    rw [Nat.one_mul]; exact Nat.mod_eq_of_lt T.sizeof_lt
  simp only [arithmetic_pack, pack_data_raw, darma_pack, List.length_singleton, hs,
    List.flatMap_cons, List.flatMap_nil, List.append_nil]
  rw [List.take_of_length_le (by rw [T.repr_length])]

/-- C4 (size agreement): for every sequence of values, memory and buffer start, the number
of bytes the packing cursor has advanced after packing the sequence, taken as a `size_t`,
equals the total a fresh sizing archive accumulates for the same sequence in the same
order; whenever the summed sizes fit a `size_t` the advance itself is that total. -/
theorem size_agreement (vs : List Item) (m : Memory) (buf : Nat) :
    ((packing_chain { mem := m, spot := buf } vs).spot - buf) % SIZE_MOD
      = (sizing_chain CopySizingArchive.fresh vs).size ∧
    (total_sizeof vs < SIZE_MOD →
      (packing_chain { mem := m, spot := buf } vs).spot - buf
        = (sizing_chain CopySizingArchive.fresh vs).size) := by
  rw [packing_chain_eq, sizing_chain_fresh]
  simp only [Nat.add_sub_cancel_left, true_and]
  intro h
  exact (Nat.mod_eq_of_lt h).symm

/-- Witness for C4: the three values of `main`, whose sizes sum to 44. -/
theorem size_agreement_witness :
    total_sizeof [main_i, main_val, main_str] < SIZE_MOD ∧
    (packing_chain { mem := zero_memory, spot := 0 } [main_i, main_val, main_str]).spot - 0
      = (sizing_chain CopySizingArchive.fresh [main_i, main_val, main_str]).size :=
  ⟨by decide,
   (size_agreement [main_i, main_val, main_str] zero_memory 0).2 (by decide)⟩

/-- C8 (wire layout): for every sequence of values packed in a chain, the cells between the
initial and the final cursor are exactly the concatenation, in presentation order, of each
value's object representation; the cursor advances by the summed `sizeof`s and nothing
else (no prefix, tag or padding); and no cell outside that range is written. -/
theorem wire_layout (vs : List Item) (m : Memory) (buf : Nat) :
    readBytes (packing_chain { mem := m, spot := buf } vs).mem buf
        ((packing_chain { mem := m, spot := buf } vs).spot - buf)
      = vs.flatMap (fun it => it.1.repr it.2) ∧
    (packing_chain { mem := m, spot := buf } vs).spot - buf
      = (vs.map (fun it => it.1.sizeof)).sum ∧
    (∀ a, a < buf ∨ (packing_chain { mem := m, spot := buf } vs).spot ≤ a →
      (packing_chain { mem := m, spot := buf } vs).mem a = m a) := by
  rw [packing_chain_eq]
  simp only [Nat.add_sub_cancel_left]
  refine ⟨?_, rfl, ?_⟩
  · have h := readBytes_writeBytes_same m buf (encoding vs)
    rw [encoding_length] at h
    exact h
  · intro a ha
    rcases ha with ha | ha
    · exact writeBytes_of_lt _ _ _ _ ha
    · exact writeBytes_of_ge _ _ _ _ (by rw [encoding_length]; exact ha)

/-- Witness for C8: packing `42, 3.14, "hello world"` at address 100 leaves the cell at
address 99, in front of the buffer, as it was. -/
theorem wire_layout_witness :
    ((99 : Nat) < 100 ∨
      (packing_chain { mem := zero_memory, spot := 100 } [main_i, main_val, main_str]).spot
        ≤ 99) ∧
    (packing_chain { mem := zero_memory, spot := 100 } [main_i, main_val, main_str]).mem 99
      = zero_memory 99 :=
  ⟨Or.inl (by decide),
   (wire_layout [main_i, main_val, main_str] zero_memory 100).2.2 99 (Or.inl (by decide))⟩

/-- C10 (default size contribution): for every type `T`, values `v`, `w` of `T` and sizing
archive, sizing `v` replaces the running total by the `size_t` sum of the old total and
`sizeof(T)` and leaves nothing else in the archive; the `size_t` difference between the new
and the old total is exactly `sizeof(T)`; and the result is the same for any other value
`w` of the type. -/
theorem default_size_contribution (T : CType) (v w : T.Val) (ar : CopySizingArchive) :
    op_or_sizing T ar v = { size := (ar.size + T.sizeof) % SIZE_MOD } ∧
    ((op_or_sizing T ar v).size + (SIZE_MOD - ar.size % SIZE_MOD)) % SIZE_MOD = T.sizeof ∧
    op_or_sizing T ar v = op_or_sizing T ar w := by
  refine ⟨rfl, ?_, rfl⟩
  simp only [op_or_sizing, darma_compute_size]
  have hT := T.sizeof_lt
  rw [Nat.add_mod, Nat.mod_mod, ← Nat.add_mod]
  unfold SIZE_MOD at hT ⊢
  omega

/-- C9, counterexample: `add_to_size_raw(1)` on a running total of `2 ^ 64 - 1` leaves the
total 0, which is neither `s + n` nor at least `s`; sizing an `int` through `operator|` on
a total of `2 ^ 64 - 4` leaves 0 as well. -/
theorem sizing_total_wraps :
    (add_to_size_raw full_sizing_archive 1).size = 0 ∧
    (add_to_size_raw full_sizing_archive 1).size ≠ full_sizing_archive.size + 1 ∧
    (add_to_size_raw full_sizing_archive 1).size < full_sizing_archive.size ∧
    (op_or_sizing c_int nearly_full_sizing_archive main_i.2).size = 0 ∧
    (op_or_sizing c_int nearly_full_sizing_archive main_i.2).size
      < nearly_full_sizing_archive.size := by
  decide

/-- C9, amended: sizing has no failure outcome and leaves the running total equal to the
`size_t` sum `(s + n) mod 2 ^ 64` (with `n = sizeof(T)` through `operator|`).  The new total
is `s + n`, hence not smaller than `s`, when `s + n < 2 ^ 64`; when the sum reaches
`2 ^ 64` the new total is smaller than `s`. -/
theorem sizing_total_modular (ar : CopySizingArchive) (n : Nat) (T : CType) (v : T.Val) :
    (add_to_size_raw ar n).size = (ar.size + n) % SIZE_MOD ∧
    (op_or_sizing T ar v).size = (ar.size + T.sizeof) % SIZE_MOD ∧
    (ar.size + n < SIZE_MOD →
      (add_to_size_raw ar n).size = ar.size + n ∧ ar.size ≤ (add_to_size_raw ar n).size) ∧
    (ar.size + T.sizeof < SIZE_MOD →
      (op_or_sizing T ar v).size = ar.size + T.sizeof ∧
      ar.size ≤ (op_or_sizing T ar v).size) ∧
    (ar.size < SIZE_MOD → n < SIZE_MOD → SIZE_MOD ≤ ar.size + n →
      (add_to_size_raw ar n).size < ar.size) ∧
    (ar.size < SIZE_MOD → SIZE_MOD ≤ ar.size + T.sizeof →
      (op_or_sizing T ar v).size < ar.size) := by
  have hT := T.sizeof_lt
  refine ⟨rfl, rfl, ?_, ?_, ?_, ?_⟩ <;>
    simp only [add_to_size_raw, op_or_sizing, darma_compute_size] <;>
    unfold SIZE_MOD at hT ⊢
  · intro h; omega
  · intro h; omega
  · intro h1 h2 h3; omega
  · intro h1 h3; omega

/-- Witness for C9 (amended): from the fresh archive, `add_to_size_raw(12)` and sizing an
`int` stay below `2 ^ 64`, so the totals are 12 and 4. -/
theorem sizing_total_modular_witness :
    CopySizingArchive.fresh.size + 12 < SIZE_MOD ∧
    (add_to_size_raw CopySizingArchive.fresh 12).size = CopySizingArchive.fresh.size + 12 ∧
    CopySizingArchive.fresh.size ≤ (add_to_size_raw CopySizingArchive.fresh 12).size :=
  ⟨by decide,
   (sizing_total_modular CopySizingArchive.fresh 12 c_int main_i.2).2.2.1 (by decide)⟩

/-! ## Capacity -/

/-- C5, counterexample: packing the `int` `-1` at the start of a two-byte buffer is not
reported: the operation completes with the cursor at 4, past the buffer end 2, and has
overwritten cell 3 outside the buffer; and unpacking an `int` from a two-byte buffer reads
the cells behind it, since two memories that agree on the buffer give different values. -/
theorem capacity_violation_unreported :
    small_buffer.end_ < small_buffer.data + c_int.sizeof ∧
    (darma_pack c_int minus_one { mem := zero_memory, spot := small_buffer.data }).spot = 4 ∧
    zero_memory 3 = Cell.byte 0 ∧
    (darma_pack c_int minus_one { mem := zero_memory, spot := small_buffer.data }).mem 3
      = Cell.byte 255 ∧
    readBytes zero_memory message_view.data message_view.capacity
      = readBytes receive_memory message_view.data message_view.capacity ∧
    (unpack_next_item_at c_int { mem := zero_memory, spot := message_view.data }).1.val = 0 ∧
    (unpack_next_item_at c_int { mem := receive_memory, spot := message_view.data }).1.val
      = -65536 ∧
    (unpack_next_item_at c_int { mem := receive_memory, spot := message_view.data }).2.spot
      = 104 := by
  decide

/-- C5, amended: no pack or unpack operation checks a capacity.  Each one completes,
advances the cursor by the size of what it handles whatever the buffer's extent, and
touches exactly the cells between the old and the new cursor: packing stores the object
representation there and changes no other cell; the unpacked value is determined by those
cells alone and no other cell changes.  Hence an operation whose advance stays within a
buffer changes only cells of that buffer. -/
theorem unchecked_cursor_advance (T : CType) (v : T.Val) (elems : List T.Val)
    (n_items : Nat) (p : CopyPackingArchive) (u : CopyUnpackingArchive)
    (b : SerializationBuffer) :
    ((darma_pack T v p).spot = p.spot + T.sizeof ∧
      readBytes (darma_pack T v p).mem p.spot T.sizeof = T.repr v ∧
      (∀ a, a < p.spot ∨ p.spot + T.sizeof ≤ a → (darma_pack T v p).mem a = p.mem a)) ∧
    ((pack_data_raw T p elems).spot = p.spot + elems.length * T.sizeof % SIZE_MOD ∧
      (∀ a, a < p.spot ∨ p.spot + elems.length * T.sizeof % SIZE_MOD ≤ a →
        (pack_data_raw T p elems).mem a = p.mem a)) ∧
    ((unpack_data_raw T u n_items).2.spot = u.spot + n_items * T.sizeof % SIZE_MOD ∧
      (unpack_data_raw T u n_items).2.mem = u.mem ∧
      (∀ m,
        (∀ a, u.spot ≤ a → a < u.spot + n_items * T.sizeof % SIZE_MOD → m a = u.mem a) →
        (unpack_data_raw T { mem := m, spot := u.spot } n_items).1
          = (unpack_data_raw T u n_items).1)) ∧
    ((unpack_next_item_as T u).2.spot = u.spot + T.sizeof ∧
      (∀ a, a < u.spot ∨ u.spot + T.sizeof ≤ a →
        (unpack_next_item_as T u).2.mem a = u.mem a) ∧
      (∀ m, (∀ a, u.spot ≤ a → a < u.spot + T.sizeof → m a = u.mem a) →
        (unpack_next_item_as T { mem := m, spot := u.spot }).1
          = (unpack_next_item_as T u).1)) ∧
    ((unpack_next_item_at T u).2.spot = u.spot + T.sizeof ∧
      (∀ a, a < u.spot ∨ u.spot + T.sizeof ≤ a →
        (unpack_next_item_at T u).2.mem a = u.mem a) ∧
      (∀ m, (∀ a, u.spot ≤ a → a < u.spot + T.sizeof → m a = u.mem a) →
        (unpack_next_item_at T { mem := m, spot := u.spot }).1
          = (unpack_next_item_at T u).1)) ∧
    (b.data ≤ p.spot → p.spot + T.sizeof ≤ b.end_ →
      ∀ a, (darma_pack T v p).mem a ≠ p.mem a → b.data ≤ a ∧ a < b.end_) ∧
    (b.data ≤ u.spot → u.spot + T.sizeof ≤ b.end_ →
      ∀ a, (unpack_next_item_at T u).2.mem a ≠ u.mem a → b.data ≤ a ∧ a < b.end_) := by
  have hframe : ∀ (m : Memory) (q : Nat) (bs : List Cell) (n : Nat), bs.length ≤ n →
      ∀ a, a < q ∨ q + n ≤ a → writeBytes m q bs a = m a := by
    intro m q bs n hn a ha
    rcases ha with ha | ha
    · exact writeBytes_of_lt _ _ _ _ ha
    · exact writeBytes_of_ge _ _ _ _ (by omega)
  have hin : ∀ (m : Memory) (q : Nat) (bs : List Cell) (n : Nat), bs.length ≤ n →
      b.data ≤ q → q + n ≤ b.end_ →
      ∀ a, writeBytes m q bs a ≠ m a → b.data ≤ a ∧ a < b.end_ := by
    intro m q bs n hn h1 h2 a ha
    by_contra hc
    apply ha
    apply hframe m q bs n hn
    omega
  have hmoved : ∀ x : T.Val, (T.repr (T.moved x)).length ≤ T.sizeof := fun x =>
    Nat.le_of_eq (T.repr_length _)
  refine ⟨⟨rfl, ?_, ?_⟩, ⟨rfl, ?_⟩, ⟨rfl, rfl, ?_⟩, ⟨rfl, ?_, ?_⟩, ⟨rfl, ?_, ?_⟩,
    ?_, ?_⟩
  · have h := readBytes_writeBytes_same p.mem p.spot (T.repr v)
    rw [T.repr_length] at h
    exact h
  · exact hframe _ _ _ _ (Nat.le_of_eq (T.repr_length v))
  · exact hframe _ _ _ _ (by rw [List.length_take]; exact Nat.min_le_left _ _)
  · intro m hm
    exact readBytes_congr _ _ _ _ hm
  · exact hframe _ _ _ _ (hmoved _)
  · intro m hm
    simp only [unpack_next_item_as]
    rw [readBytes_congr _ _ _ _ hm]
  · exact hframe _ _ _ _ (hmoved _)
  · intro m hm
    simp only [unpack_next_item_at]
    rw [readBytes_congr _ _ _ _ hm]
  · intro h1 h2
    exact hin _ _ _ _ (Nat.le_of_eq (T.repr_length v)) h1 h2
  · intro h1 h2
    exact hin _ _ _ _ (hmoved _) h1 h2

/-- Witness for C5 (amended): packing the `int` 42 at the start of an 8-byte buffer at
address 16 stays within the buffer, and changes only cells of the buffer. -/
theorem unchecked_cursor_advance_witness :
    (16 : Nat) ≤ 16 ∧ 16 + c_int.sizeof ≤ (NonOwningSerializationBuffer 16 8).end_ ∧
    ∀ a, (darma_pack c_int main_i.2 { mem := zero_memory, spot := 16 }).mem a
        ≠ zero_memory a →
      16 ≤ a ∧ a < (NonOwningSerializationBuffer 16 8).end_ :=
  ⟨by decide, by decide,
   (unchecked_cursor_advance c_int main_i.2 [] 0 { mem := zero_memory, spot := 16 }
      { mem := zero_memory, spot := 16 } (NonOwningSerializationBuffer 16 8)).2.2.2.2.2.1
      (by decide) (by decide)⟩

/-! ## Borrowed buffers -/

/-- The abstract cells of a `std::string` are not plain bytes: the type is outside the
trivially copyable types. -/
theorem c_string_not_trivially_copyable : ¬ c_string.trivially_copyable := by
  intro h
  obtain ⟨b, hb⟩ := h.1 "" (Cell.str "" 0) (by simp [c_string])
  cases hb

theorem handler_sizing_chain_cons (ar : CopySizingArchive) (it : HandlerItem)
    (vs : List HandlerItem) :
    handler_sizing_chain ar (it :: vs)
      = handler_sizing_chain (it.1.compute_size it.2 ar) vs := rfl

theorem handler_packing_chain_cons (ar : CopyPackingArchive) (it : HandlerItem)
    (vs : List HandlerItem) :
    handler_packing_chain ar (it :: vs)
      = handler_packing_chain (it.1.pack it.2 ar) vs := rfl

theorem handler_total_cons (it : HandlerItem) (vs : List HandlerItem) :
    handler_total (it :: vs) = it.1.encoded_size it.2 + handler_total vs := by
  simp [handler_total]

/-- Under the dispatch contract a sizing chain accumulates the encoded sizes in `size_t`
arithmetic. -/
theorem handler_sizing_chain_size (vs : List HandlerItem)
    (hcontract : ∀ it ∈ vs, it.1.size_agrees it.2) (ar : CopySizingArchive)
    (har : ar.size < SIZE_MOD) :
    (handler_sizing_chain ar vs).size = (ar.size + handler_total vs) % SIZE_MOD := by
  induction vs generalizing ar with
  | nil => simp [handler_sizing_chain, handler_total, Nat.mod_eq_of_lt har]
  | cons it vs ih =>
    have hit := (hcontract it (List.mem_cons_self _ _)).1 ar
    have hlt : (add_to_size_raw ar (it.1.encoded_size it.2)).size < SIZE_MOD :=
      Nat.mod_lt _ SIZE_MOD_pos
    rw [handler_sizing_chain_cons, hit,
      ih (fun x hx => hcontract x (List.mem_cons_of_mem _ hx)) _ hlt, handler_total_cons]
    simp only [add_to_size_raw]
    rw [Nat.mod_add_mod, Nat.add_assoc]

/-- Under the dispatch contract a packing chain advances the cursor by the summed encoded
sizes and writes no cell outside the range it advances over. -/
theorem handler_packing_chain_spec (vs : List HandlerItem)
    (hcontract : ∀ it ∈ vs, it.1.size_agrees it.2) (ar : CopyPackingArchive) :
    (handler_packing_chain ar vs).spot = ar.spot + handler_total vs ∧
    ∀ a, a < ar.spot ∨ ar.spot + handler_total vs ≤ a →
      (handler_packing_chain ar vs).mem a = ar.mem a := by
  induction vs generalizing ar with
  | nil => simp [handler_packing_chain, handler_total]
  | cons it vs ih =>
    obtain ⟨hspot, hframe⟩ := (hcontract it (List.mem_cons_self _ _)).2 ar
    obtain ⟨ihspot, ihframe⟩ :=
      ih (fun x hx => hcontract x (List.mem_cons_of_mem _ hx)) (it.1.pack it.2 ar)
    rw [handler_packing_chain_cons, handler_total_cons]
    refine ⟨by rw [ihspot, hspot, Nat.add_assoc], ?_⟩
    intro a ha
    rw [ihframe a (by rw [hspot]; omega), hframe a (by omega)]

theorem copy_serializer_size_agrees (T : CType) (v : T.Val) :
    (copy_serializer T).size_agrees v := by
  have henc : (copy_serializer T).encoded_size v = T.sizeof := by
    simp only [Serializer.encoded_size, get_size, copy_serializer, darma_compute_size,
      make_sizing_archive, CopySizingArchive.fresh, Nat.zero_add]
    exact Nat.mod_eq_of_lt T.sizeof_lt
  refine ⟨fun ar => ?_, fun ar => ⟨?_, ?_⟩⟩
  · rw [henc]; rfl
  · rw [henc]; rfl
  · intro a ha
    rw [henc] at ha
    simp only [copy_serializer, darma_pack]
    rcases ha with ha | ha
    · exact writeBytes_of_lt _ _ _ _ ha
    · exact writeBytes_of_ge _ _ _ _ (by rw [T.repr_length]; exact ha)

theorem arithmetic_size_agrees (T : CType) (v : T.Val) :
    (arithmetic_serializer T).size_agrees v := by
  have henc : (arithmetic_serializer T).encoded_size v = T.sizeof := by
    simp only [Serializer.encoded_size, get_size, arithmetic_serializer,
      arithmetic_compute_size, add_to_size_raw, make_sizing_archive,
      CopySizingArchive.fresh, Nat.zero_add]
    exact Nat.mod_eq_of_lt T.sizeof_lt
  refine ⟨fun ar => ?_, fun ar => ⟨?_, ?_⟩⟩
  · rw [henc]; rfl
  · rw [henc]
    show (arithmetic_pack T v ar).spot = _
    rw [arithmetic_pack_eq]; rfl
  · intro a ha
    rw [henc] at ha
    show (arithmetic_pack T v ar).mem a = _
    rw [arithmetic_pack_eq]
    simp only [darma_pack]
    rcases ha with ha | ha
    · exact writeBytes_of_lt _ _ _ _ ha
    · exact writeBytes_of_ge _ _ _ _ (by rw [T.repr_length]; exact ha)

theorem string_size_agrees (s : List (Fin 256)) (hlen : 8 + s.length < SIZE_MOD) :
    string_serializer.size_agrees s := by
  have h1 : c_char.sizeof = 1 := rfl
  have h8 : c_size_t.sizeof = 8 := rfl
  have henc : string_serializer.encoded_size s = 8 + s.length := by
    simp only [Serializer.encoded_size, get_size, string_serializer, string_compute_size,
      arithmetic_compute_size, add_to_size_raw, make_sizing_archive,
      CopySizingArchive.fresh, Nat.zero_add, h1, h8, Nat.mul_one]
    unfold SIZE_MOD at hlen ⊢
    omega
  have hmod : (s.length * 1) % SIZE_MOD = s.length := by
    rw [Nat.mul_one]
    exact Nat.mod_eq_of_lt (by omega)
  refine ⟨fun ar => ?_, fun ar => ⟨?_, ?_⟩⟩
  · rw [henc]
    simp only [string_serializer, string_compute_size, arithmetic_compute_size,
      add_to_size_raw, h1, h8, Nat.mul_one, CopySizingArchive.mk.injEq]
    rw [Nat.mod_add_mod, Nat.add_assoc]
  · rw [henc]
    show (string_pack s ar).spot = _
    simp only [string_pack, arithmetic_pack_eq, pack_data_raw, darma_pack, h1, h8, hmod]
    rw [Nat.add_assoc]
  · intro a ha
    rw [henc] at ha
    show (string_pack s ar).mem a = _
    simp only [string_pack, arithmetic_pack_eq, pack_data_raw, darma_pack, h1, h8, hmod]
    have hl1 : (c_size_t.repr (Fin.ofNat s.length)).length = 8 := c_size_t.repr_length _
    have hl2 : ((s.flatMap c_char.repr).take s.length).length ≤ s.length := by
      rw [List.length_take]; exact Nat.min_le_left _ _
    rcases ha with ha | ha
    · rw [writeBytes_of_lt _ _ _ _ (by omega), writeBytes_of_lt _ _ _ _ ha]
    · rw [writeBytes_of_ge _ _ _ _ (by omega), writeBytes_of_ge _ _ _ _ (by omega)]

theorem handler_chain_of_copy_items (ar : CopySizingArchive) (vs : List Item) :
    handler_sizing_chain ar (vs.map copy_item) = sizing_chain ar vs := by
  simp only [handler_sizing_chain, sizing_chain, List.foldl_map]
  rfl

/-- C7 (exact buffer size): for every sequence of values whose types keep the dispatch
contract (packing advances by what measuring adds), the buffer returned by
`serialize(values...)`, that is by sizing the values, making the packing archive from the
sizing archive, packing the values and extracting the buffer, as
`pack_things_with_archives` does for three objects, has `capacity()` equal to the sizing
total `get_size` reports, which is the `size_t` sum of the values' encoded sizes; whenever
that sum is below `2 ^ 64`, as for every sequence a buffer can hold, the capacity is the sum
itself, the packing pass ends exactly at the end of the buffer, and no cell outside the
buffer is written. -/
theorem exact_buffer_size (vs : List HandlerItem) (alloc : Nat) (m : Memory)
    (S1 S2 S3 : Serializer) (obj : S1.Val) (obj2 : S2.Val) (obj3 : S3.Val)
    (hcontract : ∀ it ∈ vs, it.1.size_agrees it.2) :
    (serialize_values alloc m vs).1.capacity
      = get_size (handler_sizing_chain make_sizing_archive vs) ∧
    (serialize_values alloc m vs).1.capacity = handler_total vs % SIZE_MOD ∧
    pack_things_with_archives alloc m S1 S2 S3 obj obj2 obj3
      = serialize_values alloc m [⟨S1, obj⟩, ⟨S2, obj2⟩, ⟨S3, obj3⟩] ∧
    (handler_total vs < SIZE_MOD →
      (serialize_values alloc m vs).1.capacity = handler_total vs ∧
      (handler_packing_chain
          (make_packing_archive alloc m (handler_sizing_chain make_sizing_archive vs)).ar
          vs).spot
        = (serialize_values alloc m vs).1.end_ ∧
      (∀ a, a < (serialize_values alloc m vs).1.data ∨
          (serialize_values alloc m vs).1.end_ ≤ a →
        (serialize_values alloc m vs).2 a = m a)) := by
  have hsize := handler_sizing_chain_size vs hcontract make_sizing_archive SIZE_MOD_pos
  have hcap : (serialize_values alloc m vs).1.capacity = handler_total vs % SIZE_MOD := by
    show (handler_sizing_chain make_sizing_archive vs).size = _
    rw [hsize]
    simp [make_sizing_archive, CopySizingArchive.fresh]
  obtain ⟨hspot, hframe⟩ :=
    handler_packing_chain_spec vs hcontract { mem := m, spot := alloc }
  refine ⟨rfl, hcap, rfl, ?_⟩
  intro hlt
  have hcap2 : (serialize_values alloc m vs).1.capacity = handler_total vs := by
    rw [hcap]; exact Nat.mod_eq_of_lt hlt
  have hend : (serialize_values alloc m vs).1.end_ = alloc + handler_total vs := by
    show alloc + (serialize_values alloc m vs).1.capacity = _
    rw [hcap2]
  refine ⟨hcap2, ?_, ?_⟩
  · rw [hend]
    exact hspot
  · intro a ha
    rw [hend] at ha
    exact hframe a ha

/-- Witness for C7: for `serialize(i, val, my_str)` with the values `42, 3.14,
"hello world"` of `main`, the encoded sizes `sizeof(int) = 4`, `sizeof(double) = 8` and
`8 + 11` for the string (its element count and its characters) sum to 31, which is the
capacity of the buffer. -/
theorem exact_buffer_size_witness :
    (∀ it ∈ main_arguments, it.1.size_agrees it.2) ∧
    handler_total main_arguments < SIZE_MOD ∧
    handler_total main_arguments = c_int.sizeof + c_double.sizeof + (8 + 11) ∧
    (serialize_values 0 zero_memory main_arguments).1.capacity
      = handler_total main_arguments :=
  have hcontract : ∀ it ∈ main_arguments, it.1.size_agrees it.2 := by
    intro it hit
    simp only [main_arguments, List.mem_cons, List.mem_singleton, List.not_mem_nil,
      or_false] at hit
    rcases hit with rfl | rfl | rfl
    · exact arithmetic_size_agrees c_int _
    · exact arithmetic_size_agrees c_double _
    · exact string_size_agrees hello_world (by decide)
  ⟨hcontract, by decide, by decide,
   ((exact_buffer_size main_arguments 0 zero_memory (arithmetic_serializer c_int)
      (arithmetic_serializer c_double) string_serializer main_i.2 main_val.2 hello_world
      hcontract).2.2.2 (by decide)).1⟩

/-! ## Raw and typed operations -/

theorem flatMap_repr_length (T : CType) (elems : List T.Val) :
    (elems.flatMap T.repr).length = elems.length * T.sizeof := by
  induction elems with
  | nil => simp
  | cons e es ih =>
    rw [List.flatMap_cons, List.length_append, ih, T.repr_length, List.length_cons,
      Nat.succ_mul, Nat.add_comm]

/-- C11 (raw bulk pack): for every contiguous range of `N` elements of a type `E` (a range
in memory, so that its `N * sizeof(E)` bytes are fewer than `2 ^ 64`), `pack_data_raw`
leaves at the old cursor exactly the bytes of those elements, in order and unmodified,
advances the cursor by exactly `N * sizeof(E)` and writes no other cell; for the empty
range the cursor and the memory are unchanged. -/
theorem raw_bulk_pack (E : CType) (elems : List E.Val) (ar : CopyPackingArchive)
    (hrange : elems.length * E.sizeof < SIZE_MOD) :
    (pack_data_raw E ar elems).spot = ar.spot + elems.length * E.sizeof ∧
    readBytes (pack_data_raw E ar elems).mem ar.spot (elems.length * E.sizeof)
      = elems.flatMap E.repr ∧
    (∀ a, a < ar.spot ∨ ar.spot + elems.length * E.sizeof ≤ a →
      (pack_data_raw E ar elems).mem a = ar.mem a) ∧
    (pack_data_raw E ar []).spot = ar.spot ∧
    (pack_data_raw E ar []).mem = ar.mem := by
  have hsize : (elems.length * E.sizeof) % SIZE_MOD = elems.length * E.sizeof :=
    Nat.mod_eq_of_lt hrange
  have htake : (elems.flatMap E.repr).take (elems.length * E.sizeof)
      = elems.flatMap E.repr :=
    List.take_of_length_le (Nat.le_of_eq (flatMap_repr_length E elems))
  have hpk : pack_data_raw E ar elems
      = { mem := writeBytes ar.mem ar.spot (elems.flatMap E.repr),
          spot := ar.spot + elems.length * E.sizeof } := by
    simp only [pack_data_raw, hsize, htake]
  rw [hpk]
  refine ⟨rfl, ?_, ?_, ?_, ?_⟩
  · have h := readBytes_writeBytes_same ar.mem ar.spot (elems.flatMap E.repr)
    rw [flatMap_repr_length] at h
    exact h
  · intro a ha
    rcases ha with ha | ha
    · exact writeBytes_of_lt _ _ _ _ ha
    · exact writeBytes_of_ge _ _ _ _ (by rw [flatMap_repr_length]; exact ha)
  · simp [pack_data_raw]
  · simp [pack_data_raw, writeBytes_nil]

/-- Witness for C11: the range `{42, -1}` of two `int`s packed at address 10. -/
theorem raw_bulk_pack_witness :
    [(main_i.2 : IntVal), minus_one].length * c_int.sizeof < SIZE_MOD ∧
    (pack_data_raw c_int { mem := zero_memory, spot := 10 } [main_i.2, minus_one]).spot
      = 10 + [(main_i.2 : IntVal), minus_one].length * c_int.sizeof :=
  ⟨by decide,
   (raw_bulk_pack c_int [main_i.2, minus_one] { mem := zero_memory, spot := 10 }
      (by decide)).1⟩

/-- C12 (construct-and-return unpack): for every unpacking archive, type `T` and buffer
holding at least `sizeof(T)` bytes at the cursor, `unpack_next_item_as<T>()` returns the
`T` value represented by the `sizeof(T)` bytes that were at the cursor before the call (so
it returns `v` whenever those bytes are the representation of `v`), and advances the cursor
by exactly `sizeof(T)`, which stays within the buffer. -/
theorem construct_and_return_unpack (T : CType) (ar : CopyUnpackingArchive)
    (b : SerializationBuffer) (hstart : b.data ≤ ar.spot)
    (hfits : ar.spot + T.sizeof ≤ b.end_) :
    (unpack_next_item_as T ar).1 = T.ofRepr (readBytes ar.mem ar.spot T.sizeof) ∧
    (∀ v, readBytes ar.mem ar.spot T.sizeof = T.repr v → (unpack_next_item_as T ar).1 = v) ∧
    (unpack_next_item_as T ar).2.spot = ar.spot + T.sizeof ∧
    (unpack_next_item_as T ar).2.spot ≤ b.end_ ∧
    (∀ m, (∀ a, b.data ≤ a → a < b.end_ → m a = ar.mem a) →
      (unpack_next_item_as T { mem := m, spot := ar.spot }).1
        = (unpack_next_item_as T ar).1) := by
  refine ⟨rfl, ?_, rfl, hfits, ?_⟩
  · intro v hv
    simp only [unpack_next_item_as, hv, T.ofRepr_repr]
  · intro m hm
    simp only [unpack_next_item_as]
    rw [readBytes_congr m ar.mem ar.spot T.sizeof
      (fun a h1 h2 => hm a (by omega) (by omega))]

/-- Witness for C12: an `int` returned from the 44-byte buffer of `main`, with the cursor at
the buffer start. -/
theorem construct_and_return_unpack_witness :
    packed_main.1.data ≤ packed_main.1.data ∧
    packed_main.1.data + c_int.sizeof ≤ packed_main.1.end_ ∧
    (unpack_next_item_as c_int { mem := packed_main.2, spot := packed_main.1.data }).1
      = c_int.ofRepr (readBytes packed_main.2 packed_main.1.data c_int.sizeof) ∧
    (unpack_next_item_as c_int { mem := packed_main.2, spot := packed_main.1.data }).1.val
      = 42 :=
  ⟨by decide, by decide,
   (construct_and_return_unpack c_int { mem := packed_main.2, spot := packed_main.1.data }
      packed_main.1 (by decide) (by decide)).1,
   by decide⟩

/-- C13 (in-place unpack agrees with construct-and-return): for every unpacking archive and
type `T`, `unpack_next_item_at<T>(dest)` leaves in `dest` the value
`unpack_next_item_as<T>()` returns from the same state, both leave the cursor at the old
cursor plus `sizeof(T)`, and both leave the same memory. -/
theorem in_place_agrees_with_return (T : CType) (ar : CopyUnpackingArchive) :
    (unpack_next_item_at T ar).1 = (unpack_next_item_as T ar).1 ∧
    (unpack_next_item_at T ar).2.spot = ar.spot + T.sizeof ∧
    (unpack_next_item_as T ar).2.spot = ar.spot + T.sizeof ∧
    (unpack_next_item_at T ar).2 = (unpack_next_item_as T ar).2 :=
  ⟨rfl, rfl, rfl, rfl⟩

/-! ## The unpacking operator -/

/-- C14 (destroy before unpack): for every unpacking archive and destination holding a live
`T`, `ar | val` destroys the old value exactly once and before the type's unpack operation
constructs the new value in the same storage (the history of the storage is: destroy the
old value, construct the new one); the new value and the resulting archive are those of
the operator on values, and they are the same for every old value. -/
theorem destroy_before_unpack (T : CType) (ar : CopyUnpackingArchive) (old other : T.Val) :
    (op_or_unpacking_into T ar (Storage.live old)).1.events
      = [StorageEvent.destroy old, StorageEvent.construct (op_or_unpacking T ar old).1] ∧
    (op_or_unpacking_into T ar (Storage.live old)).1.object
      = some (op_or_unpacking T ar old).1 ∧
    (op_or_unpacking_into T ar (Storage.live old)).2 = (op_or_unpacking T ar old).2 ∧
    op_or_unpacking T ar old = op_or_unpacking T ar other ∧
    (op_or_unpacking_into T ar (Storage.live old)).1.object
      = (op_or_unpacking_into T ar (Storage.live other)).1.object ∧
    (op_or_unpacking_into T ar (Storage.live old)).2
      = (op_or_unpacking_into T ar (Storage.live other)).2 :=
  ⟨rfl, rfl, rfl, rfl, rfl, rfl⟩

/-! ## Chaining -/

theorem unpacking_chain_cons (ar : CopyUnpackingArchive) (d : Item) (ds : List Item) :
    unpacking_chain ar (d :: ds)
      = (⟨d.1, (op_or_unpacking d.1 ar d.2).1⟩
            :: (unpacking_chain (op_or_unpacking d.1 ar d.2).2 ds).1,
          (unpacking_chain (op_or_unpacking d.1 ar d.2).2 ds).2) := rfl

theorem unpacking_chain_append (ar : CopyUnpackingArchive) (xs ys : List Item) :
    unpacking_chain ar (xs ++ ys)
      = ((unpacking_chain ar xs).1 ++ (unpacking_chain (unpacking_chain ar xs).2 ys).1,
          (unpacking_chain (unpacking_chain ar xs).2 ys).2) := by
  induction xs generalizing ar with
  | nil => simp [unpacking_chain]
  | cons x xs ih =>
    rw [List.cons_append, unpacking_chain_cons, ih, unpacking_chain_cons]
    simp

theorem unpacking_chain_spot (ar : CopyUnpackingArchive) (ds : List Item) :
    (unpacking_chain ar ds).2.spot = ar.spot + total_sizeof ds := by
  induction ds generalizing ar with
  | nil => simp [unpacking_chain, total_sizeof]
  | cons d ds ih =>
    rw [unpacking_chain_cons]
    simp only
    rw [ih, total_sizeof_cons, ← Nat.add_assoc]
    rfl

theorem unpacking_chain_types (ar : CopyUnpackingArchive) (ds : List Item) :
    (unpacking_chain ar ds).1.map Sigma.fst = ds.map Sigma.fst := by
  induction ds generalizing ar with
  | nil => simp [unpacking_chain]
  | cons d ds ih =>
    rw [unpacking_chain_cons]
    simp only [List.map_cons, ih]

/-- An unpacking chain changes no cell outside the range its cursor moves over. -/
theorem unpacking_chain_frame (ar : CopyUnpackingArchive) (ds : List Item) (a : Nat)
    (ha : a < ar.spot ∨ (unpacking_chain ar ds).2.spot ≤ a) :
    (unpacking_chain ar ds).2.mem a = ar.mem a := by
  induction ds generalizing ar with
  | nil => rfl
  | cons d ds ih =>
    rw [unpacking_chain_spot, total_sizeof_cons] at ha
    rw [unpacking_chain_cons]
    simp only
    have hstep : (op_or_unpacking d.1 ar d.2).2.spot = ar.spot + d.1.sizeof := rfl
    rw [ih _ (by rw [unpacking_chain_spot, hstep]; omega)]
    simp only [op_or_unpacking, darma_unpack, unpack_next_item_at]
    rcases ha with ha | ha
    · exact writeBytes_of_lt _ _ _ _ ha
    · exact writeBytes_of_ge _ _ _ _ (by rw [d.1.repr_length]; omega)

/-- C15 (left-to-right chaining): for every sizing, packing and unpacking archive and values
`a`, `b`, the chain `ar | a | b` leaves the archive in the state reached by `ar | a;`
followed by `ar | b;` (and a chain over `xs` followed by `ys` is the chain over `ys` run
from the state the chain over `xs` leaves); each `operator|` returns the archive exactly as
the customization point left it; and besides the unpack destinations, which keep their
static types, a chain changes nothing but the archive: no memory cell outside the range its
cursor moves over. -/
theorem left_to_right_chaining (s_ar : CopySizingArchive) (p_ar : CopyPackingArchive)
    (u_ar : CopyUnpackingArchive) (a b : Item) (xs ys : List Item) :
    (sizing_chain s_ar [a, b] = op_or_sizing b.1 (op_or_sizing a.1 s_ar a.2) b.2 ∧
      packing_chain p_ar [a, b] = op_or_packing b.1 (op_or_packing a.1 p_ar a.2) b.2 ∧
      unpacking_chain u_ar [a, b]
        = ([⟨a.1, (op_or_unpacking a.1 u_ar a.2).1⟩,
            ⟨b.1, (op_or_unpacking b.1 (op_or_unpacking a.1 u_ar a.2).2 b.2).1⟩],
           (op_or_unpacking b.1 (op_or_unpacking a.1 u_ar a.2).2 b.2).2)) ∧
    (sizing_chain s_ar (xs ++ ys) = sizing_chain (sizing_chain s_ar xs) ys ∧
      packing_chain p_ar (xs ++ ys) = packing_chain (packing_chain p_ar xs) ys ∧
      unpacking_chain u_ar (xs ++ ys)
        = ((unpacking_chain u_ar xs).1 ++ (unpacking_chain (unpacking_chain u_ar xs).2 ys).1,
           (unpacking_chain (unpacking_chain u_ar xs).2 ys).2)) ∧
    (op_or_sizing a.1 s_ar a.2 = darma_compute_size a.1 a.2 s_ar ∧
      op_or_packing a.1 p_ar a.2 = darma_pack a.1 a.2 p_ar ∧
      op_or_unpacking a.1 u_ar a.2 = darma_unpack a.1 u_ar) ∧
    ((∀ addr, addr < p_ar.spot ∨ (packing_chain p_ar xs).spot ≤ addr →
        (packing_chain p_ar xs).mem addr = p_ar.mem addr) ∧
      (∀ addr, addr < u_ar.spot ∨ (unpacking_chain u_ar xs).2.spot ≤ addr →
        (unpacking_chain u_ar xs).2.mem addr = u_ar.mem addr) ∧
      (unpacking_chain u_ar xs).1.map Sigma.fst = xs.map Sigma.fst) := by
  refine ⟨⟨rfl, rfl, rfl⟩, ⟨?_, ?_, ?_⟩, ⟨rfl, rfl, rfl⟩, ⟨?_, ?_, ?_⟩⟩
  · exact List.foldl_append _ _ _ _
  · exact List.foldl_append _ _ _ _
  · exact unpacking_chain_append u_ar xs ys
  · intro addr ha
    have h := packing_chain_eq p_ar.mem p_ar.spot xs
    rw [h] at ha ⊢
    rcases ha with ha | ha
    · exact writeBytes_of_lt _ _ _ _ ha
    · exact writeBytes_of_ge _ _ _ _ (by rw [encoding_length]; exact ha)
  · intro addr ha
    exact unpacking_chain_frame u_ar xs addr ha
  · exact unpacking_chain_types u_ar xs

/-- Witness for C15: packing `42, 3.14` at address 100 leaves the cell at address 99 as it
was. -/
theorem left_to_right_chaining_witness :
    ((99 : Nat) < 100 ∨
      (packing_chain { mem := zero_memory, spot := 100 } [main_i, main_val]).spot ≤ 99) ∧
    (packing_chain { mem := zero_memory, spot := 100 } [main_i, main_val]).mem 99
      = zero_memory 99 :=
  ⟨Or.inl (by decide),
   (left_to_right_chaining CopySizingArchive.fresh { mem := zero_memory, spot := 100 }
      { mem := zero_memory, spot := 100 } main_i main_val [main_i, main_val]
      [main_str]).2.2.2.1 99 (Or.inl (by decide))⟩

/-! ## Misuse -/

/-- C16 (ordering mismatch is undetected misuse): there are values `a`, `b`, here the `int`
42 and the `double` 3.14, such that packing them in the order `(a, b)` and unpacking in the
order `(b, a)` completes like a matching pass, with the cursor at the end of the packed
bytes, and yields decoded values that differ from the originals: the `double` comes out as
the bit pattern `0x51EB851F0000002A` and the `int` as `0x40091EB8`. -/
theorem ordering_mismatch_undetected :
    (unpacking_chain { mem := int_then_double.mem, spot := 0 } [reset_val, reset_i]).2.spot
      = int_then_double.spot ∧
    (unpacking_chain { mem := int_then_double.mem, spot := 0 } [reset_val, reset_i]).1.map
        Sigma.fst = [main_val.1, main_i.1] ∧
    (op_or_unpacking c_double { mem := int_then_double.mem, spot := 0 } reset_val.2).1.val
      = 5902958104789647402 ∧
    (op_or_unpacking c_double { mem := int_then_double.mem, spot := 0 } reset_val.2).1.val
      ≠ (main_val.2 : Fin (2 ^ 64)).val ∧
    (op_or_unpacking c_int
      (op_or_unpacking c_double { mem := int_then_double.mem, spot := 0 } reset_val.2).2
      reset_i.2).1.val = 1074339512 ∧
    (op_or_unpacking c_int
      (op_or_unpacking c_double { mem := int_then_double.mem, spot := 0 } reset_val.2).2
      reset_i.2).1.val ≠ (main_i.2 : IntVal).val := by
  refine ⟨by decide, rfl, by decide, by decide, by decide, by decide⟩

/-! ## Consumption, aliases and order of sizing -/

theorem total_sizeof_of_types (vs ds : List Item)
    (hty : ds.map Sigma.fst = vs.map Sigma.fst) : total_sizeof ds = total_sizeof vs := by
  have h : ∀ l : List Item,
      total_sizeof l = ((l.map Sigma.fst).map (fun T : CType => T.sizeof)).sum := by
    intro l
    simp [total_sizeof, List.map_map, Function.comp_def]
  rw [h ds, h vs, hty]

/-- C17 (unpacking consumes exactly what was sized): for every sequence of values and
destinations of the same static types, after unpacking the whole sequence the cursor offset,
taken as a `size_t`, equals the sizing total for the sequence, equals the final offset of
the packing archive, and is the sizing total itself whenever the summed sizes fit a
`size_t`; and for every range of `n` elements of a type `E`, `unpack_data_raw<E>(dest, n)`
advances the cursor by the `size_t` product `n * sizeof(E)`, the amount `pack_data_raw`
advances for the range, which is `n * sizeof(E)` itself whenever the product fits a
`size_t` (as it does for every range in memory). -/
theorem unpacking_consumes_what_was_sized (vs ds : List Item) (m mp : Memory)
    (buf bufp : Nat) (E : CType) (elems : List E.Val) (n : Nat)
    (u : CopyUnpackingArchive) (p : CopyPackingArchive)
    (hty : ds.map Sigma.fst = vs.map Sigma.fst) (hn : elems.length = n) :
    ((unpacking_chain { mem := m, spot := buf } ds).2.spot - buf) % SIZE_MOD
      = (sizing_chain CopySizingArchive.fresh vs).size ∧
    (unpacking_chain { mem := m, spot := buf } ds).2.spot - buf
      = (packing_chain { mem := mp, spot := bufp } vs).spot - bufp ∧
    (total_sizeof vs < SIZE_MOD →
      (unpacking_chain { mem := m, spot := buf } ds).2.spot - buf
        = (sizing_chain CopySizingArchive.fresh vs).size) ∧
    (unpack_data_raw E u n).2.spot = u.spot + n * E.sizeof % SIZE_MOD ∧
    (unpack_data_raw E u n).2.spot - u.spot = (pack_data_raw E p elems).spot - p.spot ∧
    (n * E.sizeof < SIZE_MOD →
      (unpack_data_raw E u n).2.spot = u.spot + n * E.sizeof ∧
      (pack_data_raw E p elems).spot = p.spot + n * E.sizeof) := by
  have hsum := total_sizeof_of_types vs ds hty
  rw [unpacking_chain_spot, packing_chain_eq, sizing_chain_fresh, hsum]
  simp only [Nat.add_sub_cancel_left, true_and]
  refine ⟨?_, rfl, ?_, ?_⟩
  · intro h
    exact (Nat.mod_eq_of_lt h).symm
  · simp only [unpack_data_raw, pack_data_raw, hn, Nat.add_sub_cancel_left]
  · intro hrange
    simp only [unpack_data_raw, pack_data_raw, hn, Nat.mod_eq_of_lt hrange, and_self]

/-- Witness for C17: `42, 3.14, "hello world"` unpacked into `0, 0, ""`, and a range of two
`int`s. -/
theorem unpacking_consumes_what_was_sized_witness :
    [reset_i, reset_val, reset_str].map Sigma.fst
        = [main_i, main_val, main_str].map Sigma.fst ∧
    [(main_i.2 : IntVal), minus_one].length = 2 ∧
    2 * c_int.sizeof < SIZE_MOD ∧
    ((unpacking_chain { mem := packed_main.2, spot := 0 }
        [reset_i, reset_val, reset_str]).2.spot - 0) % SIZE_MOD
      = (sizing_chain CopySizingArchive.fresh [main_i, main_val, main_str]).size ∧
    (unpack_data_raw c_int { mem := zero_memory, spot := 10 } 2).2.spot
      = 10 + 2 * c_int.sizeof :=
  ⟨rfl, rfl, by decide,
   (unpacking_consumes_what_was_sized [main_i, main_val, main_str]
      [reset_i, reset_val, reset_str] packed_main.2 zero_memory 0 0 c_int
      [main_i.2, minus_one] 2 { mem := zero_memory, spot := 10 }
      { mem := zero_memory, spot := 10 } rfl rfl).1,
   ((unpacking_consumes_what_was_sized [main_i, main_val, main_str]
      [reset_i, reset_val, reset_str] packed_main.2 zero_memory 0 0 c_int
      [main_i.2, minus_one] 2 { mem := zero_memory, spot := 10 }
      { mem := zero_memory, spot := 10 } rfl rfl).2.2.2.2.2 (by decide)).1⟩

/-- C18 (alias operators): for every archive state and value, `ar % v` on a sizing archive,
`ar << v` on a packing archive and `ar >> v` on an unpacking archive give exactly the
archive state, the written memory or destination value, and the returned archive that
`ar | v` gives; on the storage of the destination, `>>` destroys and constructs exactly as
`|` does. -/
theorem alias_operators (T : CType) (v : T.Val) (s_ar : CopySizingArchive)
    (p_ar : CopyPackingArchive) (u_ar : CopyUnpackingArchive) (val : Storage T) :
    op_mod_sizing T s_ar v = op_or_sizing T s_ar v ∧
    op_shl_packing T p_ar v = op_or_packing T p_ar v ∧
    op_shr_unpacking T u_ar v = op_or_unpacking T u_ar v ∧
    op_shr_unpacking_into T u_ar val = op_or_unpacking_into T u_ar val :=
  ⟨rfl, rfl, rfl, rfl⟩

theorem op_or_sizing_right_comm (ar : CopySizingArchive) (a b : Item) :
    op_or_sizing b.1 (op_or_sizing a.1 ar a.2) b.2
      = op_or_sizing a.1 (op_or_sizing b.1 ar b.2) a.2 := by
  simp only [op_or_sizing, darma_compute_size, CopySizingArchive.mk.injEq]
  rw [Nat.mod_add_mod, Nat.mod_add_mod, Nat.add_right_comm]

/-- Sizing chains over two orderings of the same values end in the same archive state. -/
theorem sizing_chain_perm (ar : CopySizingArchive) (vs ws : List Item) (h : vs.Perm ws) :
    sizing_chain ar vs = sizing_chain ar ws := by
  haveI : RightCommutative (fun (a : CopySizingArchive) (it : Item) =>
      op_or_sizing it.1 a it.2) := ⟨fun ar a b => op_or_sizing_right_comm ar a b⟩
  exact h.foldl_eq ar

/-- C19 (the sizing total is order-independent): for every sequence of values and every
permutation of it, a fresh sizing archive (indeed any sizing archive) accumulates the same
total for both, and the buffers made from the two sizing results have the same
capacity. -/
theorem sizing_order_independent (vs ws : List Item) (ar : CopySizingArchive)
    (alloc : Nat) (m : Memory) (hperm : vs.Perm ws) :
    (sizing_chain CopySizingArchive.fresh vs).size
      = (sizing_chain CopySizingArchive.fresh ws).size ∧
    sizing_chain ar vs = sizing_chain ar ws ∧
    get_size (sizing_chain make_sizing_archive vs)
      = get_size (sizing_chain make_sizing_archive ws) ∧
    (serialize_values alloc m (vs.map copy_item)).1.capacity
      = (serialize_values alloc m (ws.map copy_item)).1.capacity := by
  have hfresh := sizing_chain_perm CopySizingArchive.fresh vs ws hperm
  refine ⟨by rw [hfresh], sizing_chain_perm ar vs ws hperm, ?_, ?_⟩
  · simp only [make_sizing_archive, hfresh]
  · show get_size (handler_sizing_chain make_sizing_archive (vs.map copy_item))
      = get_size (handler_sizing_chain make_sizing_archive (ws.map copy_item))
    rw [handler_chain_of_copy_items, handler_chain_of_copy_items]
    simp only [make_sizing_archive, hfresh]

/-- Witness for C19: `42, 3.14, "hello world"` sized in that order and in the order
`"hello world", 42, 3.14`. -/
theorem sizing_order_independent_witness :
    [main_i, main_val, main_str].Perm [main_str, main_i, main_val] ∧
    (sizing_chain CopySizingArchive.fresh [main_i, main_val, main_str]).size
      = (sizing_chain CopySizingArchive.fresh [main_str, main_i, main_val]).size :=
  ⟨(List.perm_append_comm : ([main_i, main_val] ++ [main_str]).Perm
      ([main_str] ++ [main_i, main_val])),
   (sizing_order_independent [main_i, main_val, main_str] [main_str, main_i, main_val]
      CopySizingArchive.fresh 0 zero_memory
      (List.perm_append_comm : ([main_i, main_val] ++ [main_str]).Perm
        ([main_str] ++ [main_i, main_val]))).1⟩

end DarmaSerialization
